import Mathlib

/-!
Shallow embedding of the SketchUp Ruby debugger server
(src/DebugServer/Server.cpp) in Lean 4.

The debugger keeps breakpoints in two stores: a resolved map
(std::map from line to std::map from file to BreakPoint, modelled as
key-sorted association lists with std::map insert semantics, which keeps
the existing entry on key collision) and an unresolved vector. A line
trace hook (TraceFunc) halts execution on a step request or a breakpoint
hit; server queries (GetStackFrames, EvaluateExpression, GetCodeLines,
ShiftActiveFrame, GetBreakLineNumber) read the break state.

External collaborators (the Ruby engine and the UI) are modelled as
inputs: a line event carries the file, line and the frames the engine
would report, and the UI notification is an emitted value.
-/

namespace RubyDebugger

/-- A breakpoint record: Common/BreakPoint.h has index, file and line. -/
structure BreakPoint where
  index : Nat
  file : String
  line : Nat
deriving DecidableEq, Repr

/-- A captured stack frame: a display name and an opaque binding handle
(a Ruby VALUE in the source, modelled as a Nat). -/
structure StackFrame where
  name : String
  binding : Nat
deriving DecidableEq, Repr

/-- The mutable state of Server::Impl. The source registry
(script lines hash) is modelled as the association list scriptLines, in
the iteration order of the C++ std::map (key-sorted). -/
structure ServerState where
  unresolved : List BreakPoint
  resolved : List (Nat × List (String × BreakPoint))
  lastBreakpointIndex : Nat
  scriptLines : List (String × List String)
  isStopped : Bool
  breakAtNextLine : Bool
  frames : List StackFrame
  activeFrameIndex : Nat
  lastBreakFilePath : String
  lastBreakLine : Nat
deriving DecidableEq, Repr

/-- The Impl constructor: all counters zero, flags false, stores empty. -/
def initState : ServerState :=
  { unresolved := []
    resolved := []
    lastBreakpointIndex := 0
    scriptLines := []
    isStopped := false
    breakAtNextLine := false
    frames := []
    activeFrameIndex := 0
    lastBreakFilePath := ""
    lastBreakLine := 0 }

/-- Lower-case image of a string as a character list. -/
def lowerChars (s : String) : List Char :=
  s.toList.map Char.toLower

/-- Whether the first character list starts the second. -/
def startsWithChars : List Char → List Char → Bool
  | [], _ => true
  | _ :: _, [] => false
  | a :: as, b :: bs => a == b && startsWithChars as bs

/-- Modelled from the spec: FindSubstringCaseInsensitive.h is not part of
the sources given; the spec describes the test as: the path contains the
breakpoint file text as a case-insensitive substring. Returns the first
index at which the needle occurs case-insensitively in the hay, or -1. -/
def FindSubstringCaseInsensitive (hay needle : String) : Int :=
  let h := lowerChars hay
  let n := lowerChars needle
  match (List.range (h.length + 1)).find? (fun i => startsWithChars n (h.drop i)) with
  | some i => (i : Int)
  | none => -1

/-- Server::Impl::ClearBreakData. -/
def ClearBreakData (s : ServerState) : ServerState :=
  { s with frames := [], isStopped := false,
           lastBreakFilePath := "", lastBreakLine := 0 }

/-- Server::Impl::ResolveBreakPoint: scan the registry in iteration
order; resolve against the first path that contains the breakpoint file
text case-insensitively and has at least bp.line source lines. Returns
the rewritten breakpoint on success (the C++ mutates bp and returns a
bool). -/
def ResolveBreakPoint (registry : List (String × List String))
    (bp : BreakPoint) : Option BreakPoint :=
  match registry.find? (fun e =>
      decide (FindSubstringCaseInsensitive e.fst bp.file ≥ 0)
        && decide (bp.line ≤ e.snd.length)) with
  | some e => some { bp with file := e.fst }
  | none => none

/-- Insertion into the inner std::map of the resolved store, keyed by
file: std::map insert keeps the list key-sorted and does nothing when
the key is already present. -/
def innerInsert (file : String) (bp : BreakPoint) :
    List (String × BreakPoint) → List (String × BreakPoint)
  | [] => [(file, bp)]
  | (f, b) :: rest =>
    if file < f then (file, bp) :: (f, b) :: rest
    else if file = f then (f, b) :: rest
    else (f, b) :: innerInsert file bp rest

/-- Insertion into the outer std::map of the resolved store, keyed by
line: operator[] creates the inner map when missing, then the inner
insert runs. -/
def outerInsert (line : Nat) (file : String) (bp : BreakPoint) :
    List (Nat × List (String × BreakPoint)) →
    List (Nat × List (String × BreakPoint))
  | [] => [(line, innerInsert file bp [])]
  | (l, m) :: rest =>
    if line < l then (line, innerInsert file bp []) :: (l, m) :: rest
    else if line = l then (l, innerInsert file bp m) :: rest
    else (l, m) :: outerInsert line file bp rest

/-- Server::Impl::AddBreakPoint: assign a fresh index when the incoming
index is 0, then file the breakpoint in the resolved map or the
unresolved vector. -/
def ImplAddBreakPoint (s : ServerState) (bp : BreakPoint)
    (isResolved : Bool) : ServerState :=
  let bp2 := if bp.index = 0 then { bp with index := s.lastBreakpointIndex + 1 } else bp
  let s2 := if bp.index = 0 then { s with lastBreakpointIndex := s.lastBreakpointIndex + 1 } else s
  if isResolved then
    { s2 with resolved := outerInsert bp2.line bp2.file bp2 s2.resolved }
  else
    { s2 with unresolved := s2.unresolved ++ [bp2] }

/-- Server::Impl::GetBreakPoint: exact lookup in the resolved map only. -/
def GetBreakPoint (s : ServerState) (file : String) (line : Nat) :
    Option BreakPoint :=
  match s.resolved.find? (fun e => e.fst = line) with
  | some e =>
    match e.snd.find? (fun f => f.fst = file) with
    | some f => some f.snd
    | none => none
  | none => none

/-- One step of the resolution pass of Server::Impl::ResolveBreakPoints:
walk the unresolved vector, moving each newly resolvable breakpoint into
the resolved map and keeping the rest in order. -/
def resolvePassGo (registry : List (String × List String)) :
    List BreakPoint → ServerState → ServerState
  | [], acc => acc
  | bp :: rest, acc =>
    match ResolveBreakPoint registry bp with
    | some bp2 => resolvePassGo registry rest (ImplAddBreakPoint acc bp2 true)
    | none =>
      resolvePassGo registry rest { acc with unresolved := acc.unresolved ++ [bp] }

/-- Server::Impl::ResolveBreakPoints. The registry refresh
(ReadScriptLinesHash) only appends engine data and is modelled as a
separate transition. -/
def ResolveBreakPoints (s : ServerState) : ServerState :=
  resolvePassGo s.scriptLines s.unresolved { s with unresolved := [] }

/-- Server::AddBreakPoint: attempt resolution against the registry, then
file the breakpoint accordingly; always returns true. -/
def AddBreakPoint (s : ServerState) (bp : BreakPoint) : ServerState × Bool :=
  match ResolveBreakPoint s.scriptLines bp with
  | some bp2 => (ImplAddBreakPoint s bp2 true, true)
  | none => (ImplAddBreakPoint s bp false, true)

/-- Scan of one inner map by Server::RemoveBreakPoint: erase the first
entry with the given index, reporting whether one was found. -/
def removeFromInner (index : Nat) :
    List (String × BreakPoint) → Option (List (String × BreakPoint))
  | [] => none
  | (f, b) :: rest =>
    if b.index = index then some rest
    else
      match removeFromInner index rest with
      | some rest2 => some ((f, b) :: rest2)
      | none => none

/-- Scan of the outer resolved map by Server::RemoveBreakPoint: the
first inner hit wins; an inner map left empty is erased from the outer
map. -/
def removeFromResolved (index : Nat) :
    List (Nat × List (String × BreakPoint)) →
    Option (List (Nat × List (String × BreakPoint)))
  | [] => none
  | (l, m) :: rest =>
    match removeFromInner index m with
    | some m2 => some (if m2.isEmpty then rest else (l, m2) :: rest)
    | none =>
      match removeFromResolved index rest with
      | some rest2 => some ((l, m) :: rest2)
      | none => none

/-- Scan of the unresolved vector by Server::RemoveBreakPoint. -/
def removeFirstUnresolved (index : Nat) :
    List BreakPoint → Option (List BreakPoint)
  | [] => none
  | bp :: rest =>
    if index = bp.index then some rest
    else (removeFirstUnresolved index rest).map (fun r => bp :: r)

/-- Server::RemoveBreakPoint: resolved entries are scanned first, then
unresolved; the first match is removed; returns whether anything was
removed. -/
def RemoveBreakPoint (s : ServerState) (index : Nat) : ServerState × Bool :=
  match removeFromResolved index s.resolved with
  | some r => ({ s with resolved := r }, true)
  | none =>
    match removeFirstUnresolved index s.unresolved with
    | some u => ({ s with unresolved := u }, true)
    | none => (s, false)

/-- Insertion into a list sorted by breakpoint index (std::sort with the
SortBreakPoints comparator). -/
def insertByIndex (bp : BreakPoint) : List BreakPoint → List BreakPoint
  | [] => [bp]
  | b :: rest =>
    if bp.index ≤ b.index then bp :: b :: rest else b :: insertByIndex bp rest

/-- Sort a breakpoint list by index ascending. -/
def sortByIndex (l : List BreakPoint) : List BreakPoint :=
  l.foldr insertByIndex []

/-- Server::GetBreakPoints: run a resolution pass, then merge resolved
and unresolved entries sorted by index. Returns the updated state with
the listing. -/
def GetBreakPoints (s : ServerState) : ServerState × List BreakPoint :=
  let s2 := ResolveBreakPoints s
  (s2, sortByIndex
    (((s2.resolved.map (fun e => e.snd.map Prod.snd)).flatten) ++ s2.unresolved))

/-- Server::IsStopped. -/
def IsStopped (s : ServerState) : Bool := s.isStopped

/-- Server::GetStackFrames: returns the captured frames with no stopped
check. -/
def GetStackFrames (s : ServerState) : List StackFrame := s.frames

/-- Server::EvaluateExpression. The Ruby evaluation primitive is
external; it is modelled as a function from the binding of the active
frame and the expression text to the display string. -/
def EvaluateExpression (evalInBinding : Nat → String → String)
    (s : ServerState) (expr : String) : String :=
  if s.frames ≠ [] ∧ s.activeFrameIndex < s.frames.length then
    evalInBinding (s.frames.getD s.activeFrameIndex ⟨"", 0⟩).binding expr
  else
    "Expression cannot be evaluated"

/-- Server::ShiftActiveFrame: shiftUp moves the cursor toward older
frames (higher index), bounded by the frame count; the other direction
is bounded by 0; no-op while running. -/
def ShiftActiveFrame (s : ServerState) (shiftUp : Bool) : ServerState :=
  if IsStopped s then
    if shiftUp then
      if s.activeFrameIndex + 1 < s.frames.length then
        { s with activeFrameIndex := s.activeFrameIndex + 1 }
      else s
    else
      if s.activeFrameIndex > 0 then
        { s with activeFrameIndex := s.activeFrameIndex - 1 }
      else s
  else s

/-- Server::GetActiveFrameIndex. -/
def GetActiveFrameIndex (s : ServerState) : Nat := s.activeFrameIndex

/-- Server::Step: arm break-at-next-line only while stopped. -/
def StepCmd (s : ServerState) : ServerState :=
  if IsStopped s then { s with breakAtNextLine := true } else s

/-- Registry lookup by file path (std::map find on script lines). -/
def lookupScript (registry : List (String × List String)) (file : String) :
    Option (List String) :=
  match registry.find? (fun e => e.fst = file) with
  | some e => some e.snd
  | none => none

/-- Server::GetCodeLines: while stopped and the break file is known,
defaulted bounds give a window 5 lines before and after the break line,
the end clamped to the file length; pairs are (1-based line number,
text). -/
def GetCodeLines (s : ServerState) (begLine endLine : Nat) :
    List (Nat × String) :=
  if IsStopped s then
    match lookupScript s.scriptLines s.lastBreakFilePath with
    | some linesVec =>
      let expandLines := 5
      let beg := if begLine = 0 then
          (if s.lastBreakLine > expandLines then s.lastBreakLine - expandLines else 1)
        else begLine
      let en := if endLine = 0 then s.lastBreakLine + expandLines else endLine
      let en := if en ≥ linesVec.length + 1 then linesVec.length else en
      if en ≥ beg then
        (List.range (en + 1 - beg)).map
          (fun j => (beg + j, linesVec.getD (beg + j - 1) ""))
      else []
    | none => []
  else []

/-- Server::GetBreakLineNumber. -/
def GetBreakLineNumber (s : ServerState) : Nat := s.lastBreakLine

/-- The UI notification emitted from the trace hook when execution
halts: Break(file, line) on a step target, Break(bp) on a breakpoint
hit. -/
inductive Notification where
  | steppedTo (file : String) (line : Nat)
  | breakpointHit (bp : BreakPoint)
deriving DecidableEq, Repr

/-- Outcome of one run of the trace hook: the state and notification at
the blocking point when a halt occurred, and the state after the hook
returns (the blocked state cleared again on resume). -/
structure TraceResult where
  blocked : Option (ServerState × Notification)
  final : ServerState
deriving Repr

/-- Server::Impl::TraceFunc on one engine event. The event carries
whether it is a line event, the file and line, and the frames the engine
backtrace would report at this point (rb_debug_inspector is external).
Break data is cleared first on every event; on a line event a halt
happens when the step flag is armed, otherwise after a resolution pass
when a resolved breakpoint matches (file, line). -/
def TraceFunc (s : ServerState) (isLineEvent : Bool) (file : String)
    (line : Nat) (engineFrames : List StackFrame) : TraceResult :=
  let s := ClearBreakData s
  if isLineEvent then
    if s.breakAtNextLine then
      let sb := { s with breakAtNextLine := false, frames := engineFrames,
                         lastBreakFilePath := file, lastBreakLine := line,
                         isStopped := true }
      { blocked := some (sb, Notification.steppedTo file line),
        final := ClearBreakData sb }
    else
      let s := if s.unresolved.isEmpty then s else ResolveBreakPoints s
      match GetBreakPoint s file line with
      | some bp =>
        let sb := { s with frames := engineFrames, lastBreakFilePath := file,
                           lastBreakLine := line, isStopped := true }
        { blocked := some (sb, Notification.breakpointHit bp),
          final := ClearBreakData sb }
      | none => { blocked := none, final := s }
  else { blocked := none, final := s }

/-- EachKeyValFunc: the registry refresh adds a source file only when it
is not present yet (std::map key-sorted insertion, existing entries kept). -/
def registryInsert (f : String) (ls : List String) :
    List (String × List String) → List (String × List String)
  | [] => [(f, ls)]
  | (g, m) :: rest =>
    if f < g then (f, ls) :: (g, m) :: rest
    else if f = g then (g, m) :: rest
    else (g, m) :: registryInsert f ls rest

/-- The engine reports a loaded source file; ReadScriptLinesHash folds
it into the registry. -/
def RegistryLoad (s : ServerState) (f : String) (ls : List String) :
    ServerState :=
  { s with scriptLines := registryInsert f ls s.scriptLines }

/-- Server::Start marks the server stopped before the UI releases it;
the release itself is the ClearBreakData transition. -/
def StartStopped (s : ServerState) : ServerState :=
  { s with isStopped := true }

/-- One observable transition of the debug server: a command from the
UI thread, an engine event on the execution thread (possibly entering
the blocked state), a resume, or a registry refresh. -/
inductive Tr : ServerState → ServerState → Prop where
  | addBP (s : ServerState) (bp : BreakPoint) : Tr s (AddBreakPoint s bp).fst
  | removeBP (s : ServerState) (i : Nat) : Tr s (RemoveBreakPoint s i).fst
  | listBPs (s : ServerState) : Tr s (GetBreakPoints s).fst
  | stepCmd (s : ServerState) : Tr s (StepCmd s)
  | shiftFrame (s : ServerState) (b : Bool) : Tr s (ShiftActiveFrame s b)
  | loadScript (s : ServerState) (f : String) (ls : List String) :
      Tr s (RegistryLoad s f ls)
  | startStop (s : ServerState) : Tr s (StartStopped s)
  | continueResume (s : ServerState) : Tr s (ClearBreakData s)
  | traceBlocked (s sb : ServerState) (n : Notification) (e : Bool)
      (f : String) (l : Nat) (fr : List StackFrame) :
      (TraceFunc s e f l fr).blocked = some (sb, n) → Tr s sb
  | traceDone (s : ServerState) (e : Bool) (f : String) (l : Nat)
      (fr : List StackFrame) : Tr s (TraceFunc s e f l fr).final

/-- States reachable from the initial server state through observable
transitions. -/
inductive Reach : ServerState → Prop where
  | init : Reach initState
  | step {s t : ServerState} : Reach s → Tr s t → Reach t

/-- The breakpoints of the resolved store in its iteration order. -/
def resolvedFlat (r : List (Nat × List (String × BreakPoint))) :
    List BreakPoint :=
  (r.map (fun e => e.snd.map Prod.snd)).flatten

/-- All breakpoints currently stored, in the scan order of
Server::RemoveBreakPoint: resolved map entries in iteration order, then
the unresolved vector. -/
def allBPs (s : ServerState) : List BreakPoint :=
  resolvedFlat s.resolved ++ s.unresolved

/-- An operator command against the breakpoint store. -/
inductive BPOp where
  | add (file : String) (line : Nat)
  | remove (index : Nat)

/-- Run a command sequence from a state, logging the index assigned by
each add (every operator-created breakpoint arrives with index 0). -/
def runOps : List BPOp → ServerState × List Nat → ServerState × List Nat
  | [], acc => acc
  | BPOp.add f l :: rest, (s, log) =>
    let s2 := (AddBreakPoint s { index := 0, file := f, line := l }).fst
    runOps rest (s2, log ++ [s2.lastBreakpointIndex])
  | BPOp.remove i :: rest, (s, log) =>
    runOps rest ((RemoveBreakPoint s i).fst, log)

/-- Number of add commands in a sequence. -/
def countAdds : List BPOp → Nat
  | [] => 0
  | BPOp.add _ _ :: rest => countAdds rest + 1
  | BPOp.remove _ :: rest => countAdds rest

/-- Well-formedness of an inner resolved map: keys strictly sorted, as
std::map iteration guarantees. -/
def innerWF (m : List (String × BreakPoint)) : Prop :=
  m.Pairwise (fun a b => a.fst < b.fst)

/-- Well-formedness of the resolved store: outer keys strictly sorted
and every inner map well-formed. -/
def resolvedWF (r : List (Nat × List (String × BreakPoint))) : Prop :=
  r.Pairwise (fun a b => a.fst < b.fst) ∧ ∀ e ∈ r, innerWF e.snd

/-- Key uniqueness of the resolved store: each line occurs in at most
one outer entry and each file at most once inside an inner map, so at
most one breakpoint sits at any (file, line). -/
def resolvedUnique (r : List (Nat × List (String × BreakPoint))) : Prop :=
  (∀ l : Nat, r.countP (fun e => decide (e.fst = l)) ≤ 1) ∧
  (∀ e ∈ r, ∀ f : String, e.snd.countP (fun x => decide (x.fst = f)) ≤ 1)

/-- The source window GetCodeLines is specified to produce for
defaulted bounds: 5 lines before the break line (clamped to line 1)
through 5 lines after it (clamped to the file length). -/
def specCodeWindow (linesVec : List String) (breakLine : Nat) :
    List (Nat × String) :=
  let beg := max 1 (breakLine - 5)
  let en := min (breakLine + 5) linesVec.length
  (List.range' beg (en + 1 - beg)).map (fun i => (i, linesVec.getD (i - 1) ""))

/-- Two engine frames used to drive a concrete halt. -/
def ceFrames : List StackFrame := [{ name := "f1", binding := 1 }, { name := "f2", binding := 2 }]

/-- A concrete halt: the server is started, a step is armed, and a line
event arrives with two frames. -/
def ceHalt : TraceResult :=
  TraceFunc (StepCmd (StartStopped initState)) true "a.rb" 1 ceFrames

/-- The blocked state of that halt. -/
def ceBlocked : ServerState :=
  ((ceHalt.blocked).getD (initState, Notification.steppedTo "" 0)).fst

/-- The state after shifting the cursor toward older frames during the
halt and then resuming. -/
def ceState : ServerState := ClearBreakData (ShiftActiveFrame ceBlocked true)

/-- A duplicate resolved insertion: two operator breakpoints at the same
(file, line) key, filed as resolved one after the other. -/
def c2sOne : ServerState :=
  ImplAddBreakPoint initState { index := 0, file := "a.rb", line := 3 } true

/-- Second insertion at the same (file, line) key. -/
def c2sTwo : ServerState :=
  ImplAddBreakPoint c2sOne { index := 0, file := "a.rb", line := 3 } true

/-- Twenty numbered source lines. -/
def lines20 : List String := (List.range 20).map (fun i => toString (i + 1))

/-- A concrete halted state: stopped at line 2 of the 20-line file. -/
def c8s : ServerState :=
  { initState with scriptLines := [("f.rb", lines20)],
                   isStopped := true,
                   lastBreakFilePath := "f.rb",
                   lastBreakLine := 2 }


/-- ImplAddBreakPoint only touches the breakpoint stores and the index
counter. -/
theorem implAdd_view (s : ServerState) (bp : BreakPoint) (r : Bool) :
    (ImplAddBreakPoint s bp r).isStopped = s.isStopped ∧
    (ImplAddBreakPoint s bp r).frames = s.frames ∧
    (ImplAddBreakPoint s bp r).activeFrameIndex = s.activeFrameIndex ∧
    (ImplAddBreakPoint s bp r).lastBreakLine = s.lastBreakLine ∧
    (ImplAddBreakPoint s bp r).lastBreakFilePath = s.lastBreakFilePath ∧
    (ImplAddBreakPoint s bp r).breakAtNextLine = s.breakAtNextLine ∧
    (ImplAddBreakPoint s bp r).scriptLines = s.scriptLines := by
  unfold ImplAddBreakPoint
  by_cases h : bp.index = 0 <;> cases r <;> simp [h]

/-- The resolution pass only moves breakpoints between the stores. -/
theorem resolvePassGo_view (registry : List (String × List String))
    (l : List BreakPoint) : ∀ acc : ServerState,
    (resolvePassGo registry l acc).isStopped = acc.isStopped ∧
    (resolvePassGo registry l acc).frames = acc.frames ∧
    (resolvePassGo registry l acc).activeFrameIndex = acc.activeFrameIndex ∧
    (resolvePassGo registry l acc).lastBreakLine = acc.lastBreakLine ∧
    (resolvePassGo registry l acc).lastBreakFilePath = acc.lastBreakFilePath ∧
    (resolvePassGo registry l acc).breakAtNextLine = acc.breakAtNextLine ∧
    (resolvePassGo registry l acc).scriptLines = acc.scriptLines := by
  induction l with
  | nil => intro acc; exact ⟨rfl, rfl, rfl, rfl, rfl, rfl, rfl⟩
  | cons bp rest ih =>
    intro acc
    cases hr : ResolveBreakPoint registry bp with
    | none =>
      simp only [resolvePassGo, hr]
      exact ih { acc with unresolved := acc.unresolved ++ [bp] }
    | some bp2 =>
      simp only [resolvePassGo, hr]
      obtain ⟨a1, a2, a3, a4, a5, a6, a7⟩ := ih (ImplAddBreakPoint acc bp2 true)
      obtain ⟨b1, b2, b3, b4, b5, b6, b7⟩ := implAdd_view acc bp2 true
      exact ⟨a1.trans b1, a2.trans b2, a3.trans b3, a4.trans b4, a5.trans b5,
             a6.trans b6, a7.trans b7⟩

/-- ResolveBreakPoints only moves breakpoints between the stores. -/
theorem resolveBreakPoints_view (s : ServerState) :
    (ResolveBreakPoints s).isStopped = s.isStopped ∧
    (ResolveBreakPoints s).frames = s.frames ∧
    (ResolveBreakPoints s).activeFrameIndex = s.activeFrameIndex ∧
    (ResolveBreakPoints s).lastBreakLine = s.lastBreakLine ∧
    (ResolveBreakPoints s).lastBreakFilePath = s.lastBreakFilePath ∧
    (ResolveBreakPoints s).breakAtNextLine = s.breakAtNextLine ∧
    (ResolveBreakPoints s).scriptLines = s.scriptLines :=
  resolvePassGo_view s.scriptLines s.unresolved { s with unresolved := [] }

/-- Server::AddBreakPoint only touches the stores and the counter. -/
theorem addBreakPoint_view (s : ServerState) (bp : BreakPoint) :
    ((AddBreakPoint s bp).fst).isStopped = s.isStopped ∧
    ((AddBreakPoint s bp).fst).frames = s.frames ∧
    ((AddBreakPoint s bp).fst).activeFrameIndex = s.activeFrameIndex ∧
    ((AddBreakPoint s bp).fst).lastBreakLine = s.lastBreakLine ∧
    ((AddBreakPoint s bp).fst).lastBreakFilePath = s.lastBreakFilePath ∧
    ((AddBreakPoint s bp).fst).breakAtNextLine = s.breakAtNextLine ∧
    ((AddBreakPoint s bp).fst).scriptLines = s.scriptLines := by
  cases hr : ResolveBreakPoint s.scriptLines bp with
  | none =>
    simp only [AddBreakPoint, hr]
    exact implAdd_view s bp false
  | some bp2 =>
    simp only [AddBreakPoint, hr]
    exact implAdd_view s bp2 true

/-- Server::RemoveBreakPoint only touches the stores. -/
theorem removeBreakPoint_view (s : ServerState) (i : Nat) :
    ((RemoveBreakPoint s i).fst).isStopped = s.isStopped ∧
    ((RemoveBreakPoint s i).fst).frames = s.frames ∧
    ((RemoveBreakPoint s i).fst).activeFrameIndex = s.activeFrameIndex ∧
    ((RemoveBreakPoint s i).fst).lastBreakLine = s.lastBreakLine ∧
    ((RemoveBreakPoint s i).fst).lastBreakFilePath = s.lastBreakFilePath ∧
    ((RemoveBreakPoint s i).fst).breakAtNextLine = s.breakAtNextLine ∧
    ((RemoveBreakPoint s i).fst).scriptLines = s.scriptLines ∧
    ((RemoveBreakPoint s i).fst).lastBreakpointIndex = s.lastBreakpointIndex := by
  unfold RemoveBreakPoint
  split
  · exact ⟨rfl, rfl, rfl, rfl, rfl, rfl, rfl, rfl⟩
  · split
    · exact ⟨rfl, rfl, rfl, rfl, rfl, rfl, rfl, rfl⟩
    · exact ⟨rfl, rfl, rfl, rfl, rfl, rfl, rfl, rfl⟩

/-- A successful resolution only rewrites the file field. -/
theorem resolveBreakPoint_some (registry : List (String × List String))
    (bp bp2 : BreakPoint) (h : ResolveBreakPoint registry bp = some bp2) :
    bp2.index = bp.index ∧ bp2.line = bp.line := by
  unfold ResolveBreakPoint at h
  cases hf : registry.find? (fun e =>
      decide (FindSubstringCaseInsensitive e.fst bp.file ≥ 0)
        && decide (bp.line ≤ e.snd.length)) with
  | none => rw [hf] at h; exact absurd h (by simp)
  | some e =>
    rw [hf] at h
    cases h
    exact ⟨rfl, rfl⟩

/-- Adding an operator breakpoint (index 0) increments the counter. -/
theorem addBreakPoint_counter (s : ServerState) (bp : BreakPoint)
    (h : bp.index = 0) :
    ((AddBreakPoint s bp).fst).lastBreakpointIndex =
      s.lastBreakpointIndex + 1 := by
  cases hr : ResolveBreakPoint s.scriptLines bp with
  | none =>
    simp only [AddBreakPoint, hr]
    unfold ImplAddBreakPoint
    simp [h]
  | some bp2 =>
    have h2 : bp2.index = 0 := (resolveBreakPoint_some _ _ _ hr).1.trans h
    simp only [AddBreakPoint, hr]
    unfold ImplAddBreakPoint
    simp [h2]

/-- The trace hook always returns with break data cleared: the returned
state is running with no frames, no break line and the cursor untouched. -/
theorem traceFunc_final_view (s : ServerState) (e : Bool) (f : String)
    (l : Nat) (fr : List StackFrame) :
    ((TraceFunc s e f l fr).final).isStopped = false ∧
    ((TraceFunc s e f l fr).final).frames = [] ∧
    ((TraceFunc s e f l fr).final).lastBreakLine = 0 ∧
    ((TraceFunc s e f l fr).final).activeFrameIndex = s.activeFrameIndex := by
  cases e with
  | false => exact ⟨rfl, rfl, rfl, rfl⟩
  | true =>
    cases hb : s.breakAtNextLine with
    | true => simp [TraceFunc, ClearBreakData, hb]
    | false =>
      cases hu : s.unresolved.isEmpty with
      | true =>
        cases hg : GetBreakPoint (ClearBreakData s) f l with
        | none =>
          simp only [ClearBreakData, hb] at hg
          simp [TraceFunc, ClearBreakData, hb, hu, hg]
        | some bp =>
          simp only [ClearBreakData, hb] at hg
          simp [TraceFunc, ClearBreakData, hb, hu, hg]
      | false =>
        cases hg : GetBreakPoint (ResolveBreakPoints (ClearBreakData s)) f l with
        | none =>
          have v := resolveBreakPoints_view (ClearBreakData s)
          simp only [ClearBreakData, hb] at v hg
          simp [TraceFunc, ClearBreakData, hb, hu, hg, v.1, v.2.1, v.2.2.1,
                v.2.2.2.1]
        | some bp =>
          have v := resolveBreakPoints_view (ClearBreakData s)
          simp only [ClearBreakData, hb] at v hg
          simp [TraceFunc, ClearBreakData, hb, hu, hg, v.2.2.1]

/-- The state at a blocking point of the trace hook is stopped. -/
theorem traceFunc_blocked_stopped (s sb : ServerState) (n : Notification)
    (e : Bool) (f : String) (l : Nat) (fr : List StackFrame)
    (h : (TraceFunc s e f l fr).blocked = some (sb, n)) :
    sb.isStopped = true := by
  cases e with
  | false => exact absurd h (by simp [TraceFunc])
  | true =>
    cases hb : s.breakAtNextLine with
    | true =>
      simp [TraceFunc, ClearBreakData, hb] at h
      rw [← h.1]
    | false =>
      cases hu : s.unresolved.isEmpty with
      | true =>
        cases hg : GetBreakPoint (ClearBreakData s) f l with
        | none =>
          simp only [ClearBreakData, hb] at hg
          exact absurd h (by simp [TraceFunc, ClearBreakData, hb, hu, hg])
        | some bp =>
          simp only [ClearBreakData, hb] at hg
          simp [TraceFunc, ClearBreakData, hb, hu, hg] at h
          rw [← h.1]
      | false =>
        cases hg : GetBreakPoint (ResolveBreakPoints (ClearBreakData s)) f l with
        | none =>
          simp only [ClearBreakData, hb] at hg
          exact absurd h (by simp [TraceFunc, ClearBreakData, hb, hu, hg])
        | some bp =>
          simp only [ClearBreakData, hb] at hg
          simp [TraceFunc, ClearBreakData, hb, hu, hg] at h
          rw [← h.1]

/-- Claim C5: for every line event delivered while the step flag
(break-at-next-line) is armed, the trace hook clears the flag, captures
the frames, records the file and line of the event, sets the stopped
state and notifies the UI with a stepped-to-line notification; the halt
is unconditional, whatever the breakpoint stores contain. -/
theorem c5_step_halts_unconditionally (s : ServerState) (file : String)
    (line : Nat) (fr : List StackFrame) (h : s.breakAtNextLine = true) :
    (TraceFunc s true file line fr).blocked =
      some ({ s with breakAtNextLine := false, frames := fr,
                     lastBreakFilePath := file, lastBreakLine := line,
                     isStopped := true }, Notification.steppedTo file line) := by
  simp [TraceFunc, ClearBreakData, h]

/-- Witness for claim C5 at a concrete armed state. -/
theorem c5_step_halts_unconditionally_witness :
    (TraceFunc { initState with breakAtNextLine := true } true "f.rb" 3
        [{ name := "m", binding := 7 }]).blocked =
      some ({ initState with breakAtNextLine := false,
                             frames := [{ name := "m", binding := 7 }],
                             lastBreakFilePath := "f.rb", lastBreakLine := 3,
                             isStopped := true },
            Notification.steppedTo "f.rb" 3) :=
  c5_step_halts_unconditionally { initState with breakAtNextLine := true }
    "f.rb" 3 [{ name := "m", binding := 7 }] rfl

/-- Claim C9: ShiftActiveFrame moves the cursor by exactly one position
or not at all: it is a no-op while running, a no-op at cursor 0 when
shifting toward newer frames, a no-op at cursor frameCount - 1 when
shifting toward older frames, and any movement stays within
[0, frameCount - 1]. -/
theorem c9_shift_active_frame (s : ServerState) (b : Bool) :
    (s.isStopped = false → ShiftActiveFrame s b = s) ∧
    (s.isStopped = true → b = false → s.activeFrameIndex = 0 →
      ShiftActiveFrame s b = s) ∧
    (s.isStopped = true → b = true →
      s.activeFrameIndex = s.frames.length - 1 → ShiftActiveFrame s b = s) ∧
    ((ShiftActiveFrame s b).activeFrameIndex = s.activeFrameIndex ∨
      ((ShiftActiveFrame s b).activeFrameIndex = s.activeFrameIndex + 1 ∧
        s.activeFrameIndex + 1 ≤ s.frames.length - 1) ∨
      (s.activeFrameIndex = (ShiftActiveFrame s b).activeFrameIndex + 1 ∧
        0 < s.activeFrameIndex)) := by
  refine ⟨?_, ?_, ?_, ?_⟩
  · intro hs
    simp [ShiftActiveFrame, IsStopped, hs]
  · intro hs hb h0
    simp [ShiftActiveFrame, IsStopped, hs, hb, h0]
  · intro hs hb hend
    simp only [ShiftActiveFrame, IsStopped, hs, hb, if_true]
    rw [if_neg]
    omega
  · cases hs : s.isStopped
    · left
      simp [ShiftActiveFrame, IsStopped, hs]
    · cases b
      · rcases Nat.eq_zero_or_pos s.activeFrameIndex with h0 | h0
        · left
          simp [ShiftActiveFrame, IsStopped, hs, h0]
        · right; right
          have hx : ShiftActiveFrame s false =
              { s with activeFrameIndex := s.activeFrameIndex - 1 } := by
            simp [ShiftActiveFrame, IsStopped, hs, h0]
          rw [hx]
          refine ⟨?_, h0⟩
          show s.activeFrameIndex = s.activeFrameIndex - 1 + 1
          omega
      · by_cases hlt : s.activeFrameIndex + 1 < s.frames.length
        · right; left
          have hx : ShiftActiveFrame s true =
              { s with activeFrameIndex := s.activeFrameIndex + 1 } := by
            simp [ShiftActiveFrame, IsStopped, hs, hlt]
          rw [hx]
          exact ⟨rfl, by omega⟩
        · left
          simp [ShiftActiveFrame, IsStopped, hs, hlt]

/-- Witness for claim C9 at a concrete stopped state with two frames
and the cursor at the older end. -/
theorem c9_shift_active_frame_witness :
    ShiftActiveFrame { initState with isStopped := true, frames := ceFrames,
                                      activeFrameIndex := 1 } true =
      { initState with isStopped := true, frames := ceFrames,
                       activeFrameIndex := 1 } :=
  (c9_shift_active_frame
      { initState with isStopped := true, frames := ceFrames,
                       activeFrameIndex := 1 } true).2.2.1 rfl rfl (by decide)

/-- Counterexample to claim C3: a reachable state obtained by halting
with two captured frames, shifting the cursor to 1 and resuming; the
frame sequence is empty yet the cursor is still 1, because
ClearBreakData never resets the active-frame cursor. -/
theorem c3_cursor_not_reset_counterexample :
    Reach ceState ∧ ceState.frames = [] ∧ ceState.activeFrameIndex = 1 := by
  refine ⟨?_, by decide, by decide⟩
  have h0 : Reach initState := Reach.init
  have h1 := Reach.step h0 (Tr.startStop initState)
  have h2 := Reach.step h1 (Tr.stepCmd (StartStopped initState))
  have h3 : Reach ceBlocked :=
    Reach.step h2
      (Tr.traceBlocked (StepCmd (StartStopped initState)) ceBlocked
        (Notification.steppedTo "a.rb" 1) true "a.rb" 1 ceFrames (by decide))
  have h4 := Reach.step h3 (Tr.shiftFrame ceBlocked true)
  exact Reach.step h4 (Tr.continueResume (ShiftActiveFrame ceBlocked true))

/-- Claim C3 as amended: whenever break data is cleared (on resume and
at the start of every trace event) the captured frames are discarded,
the stopped flag, break file and break line are reset, but the
active-frame cursor keeps its value, so the cursor can be non-zero while
the frame sequence is empty. -/
theorem c3_clear_break_data_keeps_cursor (s : ServerState) :
    (ClearBreakData s).frames = [] ∧
    (ClearBreakData s).isStopped = false ∧
    (ClearBreakData s).lastBreakFilePath = "" ∧
    (ClearBreakData s).lastBreakLine = 0 ∧
    (ClearBreakData s).activeFrameIndex = s.activeFrameIndex ∧
    (∀ e f l fr,
      ((TraceFunc s e f l fr).final).activeFrameIndex = s.activeFrameIndex) := by
  refine ⟨rfl, rfl, rfl, rfl, rfl, ?_⟩
  intro e f l fr
  exact (traceFunc_final_view s e f l fr).2.2.2

/-- ShiftActiveFrame only moves the cursor. -/
theorem shiftActiveFrame_view (s : ServerState) (b : Bool) :
    (ShiftActiveFrame s b).isStopped = s.isStopped ∧
    (ShiftActiveFrame s b).frames = s.frames ∧
    (ShiftActiveFrame s b).lastBreakLine = s.lastBreakLine := by
  unfold ShiftActiveFrame IsStopped
  split
  · split
    · split
      · exact ⟨rfl, rfl, rfl⟩
      · exact ⟨rfl, rfl, rfl⟩
    · split
      · exact ⟨rfl, rfl, rfl⟩
      · exact ⟨rfl, rfl, rfl⟩
  · exact ⟨rfl, rfl, rfl⟩

/-- Safety invariant of the server: in every reachable state that is not
stopped, the frame sequence is empty and the recorded break line is 0. -/
theorem reach_running_inv {s : ServerState} (h : Reach s) :
    s.isStopped = false → s.frames = [] ∧ s.lastBreakLine = 0 := by
  induction h with
  | init => intro _; exact ⟨rfl, rfl⟩
  | step hr ht ih =>
    rename_i u t
    cases ht with
    | addBP bp =>
      intro hrun
      obtain ⟨v1, v2, v3, v4, v5, v6, v7⟩ := addBreakPoint_view u bp
      rw [v1] at hrun
      exact ⟨v2.trans (ih hrun).1, v4.trans (ih hrun).2⟩
    | removeBP i =>
      intro hrun
      obtain ⟨v1, v2, v3, v4, v5, v6, v7, v8⟩ := removeBreakPoint_view u i
      rw [v1] at hrun
      exact ⟨v2.trans (ih hrun).1, v4.trans (ih hrun).2⟩
    | listBPs =>
      intro hrun
      obtain ⟨v1, v2, v3, v4, v5, v6, v7⟩ := resolveBreakPoints_view u
      rw [show ((GetBreakPoints u).fst).isStopped = (ResolveBreakPoints u).isStopped from rfl, v1] at hrun
      exact ⟨v2.trans (ih hrun).1, v4.trans (ih hrun).2⟩
    | stepCmd =>
      intro hrun
      cases hs : u.isStopped with
      | false =>
        have he : StepCmd u = u := by simp [StepCmd, IsStopped, hs]
        rw [he] at hrun ⊢
        exact ih hrun
      | true =>
        have he : StepCmd u = { u with breakAtNextLine := true } := by
          simp [StepCmd, IsStopped, hs]
        rw [he] at hrun
        simp [hs] at hrun
    | shiftFrame b =>
      intro hrun
      obtain ⟨v1, v2, v3⟩ := shiftActiveFrame_view u b
      rw [v1] at hrun
      exact ⟨v2.trans (ih hrun).1, v3.trans (ih hrun).2⟩
    | loadScript f ls =>
      intro hrun
      exact ih hrun
    | startStop =>
      intro hrun
      simp [StartStopped] at hrun
    | continueResume =>
      intro _
      exact ⟨rfl, rfl⟩
    | traceBlocked sb n e f l fr hbl =>
      intro hrun
      have hs := traceFunc_blocked_stopped _ _ _ _ _ _ _ hbl
      rw [hrun] at hs
      exact absurd hs (by decide)
    | traceDone e f l fr =>
      intro _
      exact ⟨(traceFunc_final_view u e f l fr).2.1,
             (traceFunc_final_view u e f l fr).2.2.1⟩

/-- Claim C7: in every reachable state where IsStopped is false,
GetStackFrames returns the empty sequence, EvaluateExpression returns
the fixed cannot-be-evaluated message for every expression and every
engine evaluator, and GetCodeLines returns the empty sequence for all
bounds. -/
theorem c7_running_queries_degrade (s : ServerState) (h : Reach s)
    (hr : IsStopped s = false) :
    GetStackFrames s = [] ∧
    (∀ ev expr, EvaluateExpression ev s expr = "Expression cannot be evaluated") ∧
    (∀ b e2, GetCodeLines s b e2 = []) := by
  obtain ⟨hf, _⟩ := reach_running_inv h hr
  refine ⟨hf, ?_, ?_⟩
  · intro ev expr
    simp [EvaluateExpression, hf]
  · intro b e2
    simp [GetCodeLines, hr]

/-- Witness for claim C7 at the initial state, which is reachable and
not stopped. -/
theorem c7_running_queries_degrade_witness :
    GetStackFrames initState = [] ∧
    EvaluateExpression (fun _ _ => "v") initState "x" =
      "Expression cannot be evaluated" ∧
    GetCodeLines initState 0 0 = [] :=
  ⟨(c7_running_queries_degrade initState Reach.init rfl).1,
   (c7_running_queries_degrade initState Reach.init rfl).2.1 (fun _ _ => "v") "x",
   (c7_running_queries_degrade initState Reach.init rfl).2.2 0 0⟩

/-- Claim C10: in every reachable state where IsStopped is false,
GetBreakLineNumber returns 0; break data is zeroed on every resume and
at the start of every trace event, so a non-zero break line is only
visible while stopped. -/
theorem c10_break_line_zero_when_running (s : ServerState) (h : Reach s)
    (hr : IsStopped s = false) : GetBreakLineNumber s = 0 :=
  (reach_running_inv h hr).2

/-- Witness for claim C10 at the initial state. -/
theorem c10_break_line_zero_when_running_witness :
    GetBreakLineNumber initState = 0 :=
  c10_break_line_zero_when_running initState Reach.init rfl

/-- Claim C1: a resolution attempt on a breakpoint succeeds exactly when
some registry path contains the breakpoint file text as a
case-insensitive substring and has at least bp.line source lines; the
first such path in the registry iteration order is chosen and written
into the file field, and otherwise the breakpoint stays unresolved. -/
theorem c1_resolution_first_match (registry : List (String × List String))
    (bp : BreakPoint) :
    ((ResolveBreakPoint registry bp).isSome ↔
      ∃ e ∈ registry, FindSubstringCaseInsensitive e.fst bp.file ≥ 0 ∧
        bp.line ≤ e.snd.length) ∧
    (∀ pre e post, registry = pre ++ e :: post →
      (∀ e2 ∈ pre, ¬(FindSubstringCaseInsensitive e2.fst bp.file ≥ 0 ∧
          bp.line ≤ e2.snd.length)) →
      FindSubstringCaseInsensitive e.fst bp.file ≥ 0 →
      bp.line ≤ e.snd.length →
      ResolveBreakPoint registry bp = some { bp with file := e.fst }) ∧
    ((∀ e ∈ registry, ¬(FindSubstringCaseInsensitive e.fst bp.file ≥ 0 ∧
        bp.line ≤ e.snd.length)) →
      ResolveBreakPoint registry bp = none) := by
  refine ⟨⟨?_, ?_⟩, ?_, ?_⟩
  · intro hs
    unfold ResolveBreakPoint at hs
    cases hf : registry.find? (fun e =>
        decide (FindSubstringCaseInsensitive e.fst bp.file ≥ 0)
          && decide (bp.line ≤ e.snd.length)) with
    | none => rw [hf] at hs; simp at hs
    | some e =>
      have hmem := List.mem_of_find?_eq_some hf
      have hpe := List.find?_some hf
      rw [Bool.and_eq_true, decide_eq_true_eq, decide_eq_true_eq] at hpe
      exact ⟨e, hmem, hpe.1, hpe.2⟩
  · rintro ⟨e, hmem, h1, h2⟩
    unfold ResolveBreakPoint
    have hs : (registry.find? (fun e =>
        decide (FindSubstringCaseInsensitive e.fst bp.file ≥ 0)
          && decide (bp.line ≤ e.snd.length))).isSome := by
      rw [List.find?_isSome]
      exact ⟨e, hmem, by simp [h1, h2]⟩
    cases hf : registry.find? (fun e =>
        decide (FindSubstringCaseInsensitive e.fst bp.file ≥ 0)
          && decide (bp.line ≤ e.snd.length)) with
    | none => rw [hf] at hs; simp at hs
    | some e2 => rfl
  · intro pre e post hsplit h1 h2 h3
    subst hsplit
    revert h1
    induction pre with
    | nil =>
      intro _
      have hp : (decide (FindSubstringCaseInsensitive e.fst bp.file ≥ 0)
          && decide (bp.line ≤ e.snd.length)) = true := by
        simp [h2, h3]
      simp [ResolveBreakPoint, List.find?, hp]
    | cons a rest ih =>
      intro hpre
      have hpa : (decide (FindSubstringCaseInsensitive a.fst bp.file ≥ 0)
          && decide (bp.line ≤ a.snd.length)) = false := by
        rw [Bool.eq_false_iff]
        intro hc
        rw [Bool.and_eq_true, decide_eq_true_eq, decide_eq_true_eq] at hc
        exact hpre a (List.mem_cons_self a rest) hc
      have hres := ih (fun e2 hm => hpre e2 (List.mem_cons_of_mem a hm))
      simp only [List.cons_append, ResolveBreakPoint, List.find?, hpa] at hres ⊢
      exact hres
  · induction registry with
    | nil => intro _; rfl
    | cons a rest ih =>
      intro hall
      have hpa : (decide (FindSubstringCaseInsensitive a.fst bp.file ≥ 0)
          && decide (bp.line ≤ a.snd.length)) = false := by
        rw [Bool.eq_false_iff]
        intro hc
        rw [Bool.and_eq_true, decide_eq_true_eq, decide_eq_true_eq] at hc
        exact hall a (List.mem_cons_self a rest) hc
      have hres := ih (fun e2 hm => hall e2 (List.mem_cons_of_mem a hm))
      simp only [ResolveBreakPoint, List.find?, hpa] at hres ⊢
      exact hres

/-- Witness for claim C1: the first registry path is skipped (no
substring match), the second matches case-insensitively with enough
lines, and the breakpoint file is rewritten to it. -/
theorem c1_resolution_first_match_witness :
    ResolveBreakPoint [("short.rb", ["x"]), ("/Abs/Path/Foo.rb", lines20)]
        { index := 5, file := "foo.rb", line := 3 } =
      some { index := 5, file := "/Abs/Path/Foo.rb", line := 3 } :=
  (c1_resolution_first_match
      [("short.rb", ["x"]), ("/Abs/Path/Foo.rb", lines20)]
      { index := 5, file := "foo.rb", line := 3 }).2.1
    [("short.rb", ["x"])] ("/Abs/Path/Foo.rb", lines20) [] rfl
    (by decide) (by decide) (by decide)

/-- Claim C8: while stopped with a known break file, defaulted bounds
give the window from 5 lines before the break line (clamped to line 1)
through 5 lines after it (clamped to the file length), at most 11 lines;
an unknown break file yields the empty sequence (and an inverted window
is empty as well, since the range map is empty then). -/
theorem c8_code_window (s : ServerState) (h : IsStopped s = true) :
    (∀ linesVec,
      lookupScript s.scriptLines s.lastBreakFilePath = some linesVec →
      GetCodeLines s 0 0 = specCodeWindow linesVec s.lastBreakLine ∧
      (GetCodeLines s 0 0).length ≤ 11) ∧
    (lookupScript s.scriptLines s.lastBreakFilePath = none →
      GetCodeLines s 0 0 = []) := by
  constructor
  · intro linesVec hlook
    have hB : (if s.lastBreakLine > 5 then s.lastBreakLine - 5 else 1) =
        max 1 (s.lastBreakLine - 5) := by
      split <;> omega
    have hE : (if s.lastBreakLine + 5 ≥ linesVec.length + 1 then
          linesVec.length else s.lastBreakLine + 5) =
        min (s.lastBreakLine + 5) linesVec.length := by
      split <;> omega
    have hmain : GetCodeLines s 0 0 = specCodeWindow linesVec s.lastBreakLine := by
      unfold GetCodeLines specCodeWindow
      simp only [h, if_true, hlook]
      rw [hB, hE]
      by_cases hEB : min (s.lastBreakLine + 5) linesVec.length ≥
          max 1 (s.lastBreakLine - 5)
      · rw [if_pos hEB, List.range'_eq_map_range, List.map_map]
        rfl
      · rw [if_neg hEB]
        have hn : min (s.lastBreakLine + 5) linesVec.length + 1 -
            max 1 (s.lastBreakLine - 5) = 0 := by omega
        rw [hn]
        rfl
    refine ⟨hmain, ?_⟩
    rw [hmain]
    unfold specCodeWindow
    simp only [List.length_map, List.length_range']
    omega
  · intro hlook
    simp [GetCodeLines, h, hlook]

/-- Witness for claim C8: a halt at line 2 of a 20-line file returns
lines 1 through 7. -/
theorem c8_code_window_witness :
    GetCodeLines c8s 0 0 = specCodeWindow lines20 2 ∧
    (GetCodeLines c8s 0 0).map Prod.fst = [1, 2, 3, 4, 5, 6, 7] ∧
    (GetCodeLines c8s 0 0).length ≤ 11 :=
  ⟨((c8_code_window c8s rfl).1 lines20 (by decide)).1, by decide,
   ((c8_code_window c8s rfl).1 lines20 (by decide)).2⟩

/-- The assignment log of a command sequence is the contiguous range of
indices starting one past the counter of the starting state. -/
theorem runOps_log (ops : List BPOp) : ∀ (s : ServerState) (log : List Nat),
    (runOps ops (s, log)).snd =
      log ++ List.range' (s.lastBreakpointIndex + 1) (countAdds ops) := by
  induction ops with
  | nil => intro s log; simp [runOps, countAdds]
  | cons op rest ih =>
    intro s log
    cases op with
    | add f l =>
      have hc := addBreakPoint_counter s { index := 0, file := f, line := l } rfl
      simp only [runOps, countAdds]
      rw [ih, hc, List.range'_succ]
      simp [List.append_assoc]
    | remove i =>
      simp only [runOps, countAdds]
      rw [ih, (removeBreakPoint_view s i).2.2.2.2.2.2.2]

/-- Claim C4: over any sequence of add and remove commands (added
breakpoints arriving with index 0), the indices assigned on insertion
are non-zero and strictly increasing, and are never reassigned even
after a removal; concretely, adding three breakpoints, removing the
second and adding a fourth leaves indices 1, 3, 4 in the store. -/
theorem c4_indices_monotone (ops : List BPOp) :
    ((runOps ops (initState, [])).snd).Pairwise (· < ·) ∧
    (∀ i ∈ (runOps ops (initState, [])).snd, i ≠ 0) ∧
    (allBPs (runOps [BPOp.add "a" 1, BPOp.add "b" 2, BPOp.add "c" 3,
        BPOp.remove 2, BPOp.add "d" 4] (initState, [])).fst).map
      BreakPoint.index = [1, 3, 4] := by
  have hlog := runOps_log ops initState []
  refine ⟨?_, ?_, by decide⟩
  · rw [hlog]
    simpa using List.pairwise_lt_range' (initState.lastBreakpointIndex + 1)
      (countAdds ops)
  · intro i hi
    rw [hlog] at hi
    simp only [List.nil_append, List.mem_range'_1] at hi
    omega

/-- Witness for claim C4 at a concrete command sequence: the log of
adding, removing the only breakpoint, then adding again is strictly
increasing and contains the non-zero index 2. -/
theorem c4_indices_monotone_witness :
    ((runOps [BPOp.add "x" 1, BPOp.remove 1, BPOp.add "y" 2]
        (initState, [])).snd).Pairwise (· < ·) ∧
    2 ∈ (runOps [BPOp.add "x" 1, BPOp.remove 1, BPOp.add "y" 2]
        (initState, [])).snd ∧
    (2 : Nat) ≠ 0 :=
  ⟨(c4_indices_monotone [BPOp.add "x" 1, BPOp.remove 1, BPOp.add "y" 2]).1,
   by decide,
   (c4_indices_monotone [BPOp.add "x" 1, BPOp.remove 1, BPOp.add "y" 2]).2.1 2
     (by decide)⟩

/-- Characterization of the inner scan of RemoveBreakPoint: it is the
first-match erasure on the breakpoints of the inner map, succeeding
exactly when some entry carries the index. -/
theorem removeFromInner_spec (i : Nat) (m : List (String × BreakPoint)) :
    (removeFromInner i m).map (fun r => r.map Prod.snd) =
      if (m.map Prod.snd).any (fun b => b.index == i)
      then some ((m.map Prod.snd).eraseP (fun b => b.index == i))
      else none := by
  induction m with
  | nil => rfl
  | cons x rest ih =>
    obtain ⟨f, b⟩ := x
    by_cases hb : b.index = i
    · have hp : (fun c : BreakPoint => c.index == i) b = true := by simp [hb]
      simp [removeFromInner, hb, List.eraseP_cons_of_pos hp]
    · have hp : ¬ (fun c : BreakPoint => c.index == i) b = true := by simp [hb]
      cases hr : removeFromInner i rest with
      | some r2 =>
        rw [hr] at ih
        by_cases han : (rest.map Prod.snd).any (fun b => b.index == i)
        · rw [if_pos han] at ih
          have ih2 := Option.some.inj ih
          simp [removeFromInner, hb, hr, List.any_cons,
                List.eraseP_cons_of_neg hp, han, ih2]
        · rw [if_neg han] at ih
          exact absurd ih (by simp)
      | none =>
        rw [hr] at ih
        by_cases han : (rest.map Prod.snd).any (fun b => b.index == i)
        · rw [if_pos han] at ih
          exact absurd ih.symm (by simp)
        · simp [removeFromInner, hb, hr, List.any_cons, han]

/-- Characterization of the resolved-store scan of RemoveBreakPoint as
first-match erasure on the flattened store (empty inner maps left by
the erase disappear from the outer map but not from the flattening). -/
theorem removeFromResolved_spec (i : Nat)
    (r : List (Nat × List (String × BreakPoint))) :
    (removeFromResolved i r).map resolvedFlat =
      if (resolvedFlat r).any (fun b => b.index == i)
      then some ((resolvedFlat r).eraseP (fun b => b.index == i))
      else none := by
  induction r with
  | nil => rfl
  | cons x rest ih =>
    obtain ⟨l, m⟩ := x
    have hflat : resolvedFlat ((l, m) :: rest) =
        m.map Prod.snd ++ resolvedFlat rest := by
      simp [resolvedFlat]
    have hinner := removeFromInner_spec i m
    by_cases hm : (m.map Prod.snd).any (fun b => b.index == i) = true
    · rw [if_pos hm] at hinner
      cases hri : removeFromInner i m with
      | none => rw [hri] at hinner; exact absurd hinner (by simp)
      | some m2 =>
        rw [hri] at hinner
        have hm2 := Option.some.inj hinner
        obtain ⟨a, hamem, hap⟩ := List.any_eq_true.mp hm
        have herase : (resolvedFlat ((l, m) :: rest)).eraseP
            (fun b => b.index == i) =
            ((m.map Prod.snd).eraseP (fun b => b.index == i)) ++
              resolvedFlat rest := by
          rw [hflat]
          exact @List.eraseP_append_left _ (fun b => b.index == i) a hap _
            (resolvedFlat rest) hamem
        have hany : (resolvedFlat ((l, m) :: rest)).any
            (fun b => b.index == i) = true := by
          rw [hflat, List.any_append, hm, Bool.true_or]
        rw [hany, if_pos rfl, herase, ← hm2]
        simp only [removeFromResolved, hri, Option.map_some']
        by_cases hm2e : m2.isEmpty
        · have hm2nil : m2 = [] := by simpa using hm2e
          simp [hm2e, hm2nil, hflat, resolvedFlat]
        · simp [hm2e, resolvedFlat]
    · rw [if_neg hm] at hinner
      have hri : removeFromInner i m = none := by
        cases hri2 : removeFromInner i m with
        | none => rfl
        | some m2 => rw [hri2] at hinner; exact absurd hinner (by simp)
      have hmnot : ∀ b ∈ m.map Prod.snd, ¬ ((b.index == i) = true) := by
        intro b hbmem hpb
        exact hm (List.any_eq_true.mpr ⟨b, hbmem, hpb⟩)
      by_cases hrest : (resolvedFlat rest).any (fun b => b.index == i) = true
      · rw [if_pos hrest] at ih
        cases hrr : removeFromResolved i rest with
        | none => rw [hrr] at ih; exact absurd ih (by simp)
        | some rest2 =>
          rw [hrr] at ih
          have hrest2 := Option.some.inj ih
          have hany : (resolvedFlat ((l, m) :: rest)).any
              (fun b => b.index == i) = true := by
            rw [hflat, List.any_append, hrest, Bool.or_true]
          have herase : (resolvedFlat ((l, m) :: rest)).eraseP
              (fun b => b.index == i) =
              m.map Prod.snd ++ (resolvedFlat rest).eraseP
                (fun b => b.index == i) := by
            rw [hflat]
            exact List.eraseP_append_right _ hmnot
          rw [hany, if_pos rfl, herase, ← hrest2]
          simp only [removeFromResolved, hri, hrr, Option.map_some']
          simp [resolvedFlat]
      · have hrr : removeFromResolved i rest = none := by
          cases hrr2 : removeFromResolved i rest with
          | none => rfl
          | some rest2 =>
            rw [hrr2, if_neg hrest] at ih
            exact absurd ih (by simp)
        have hany : (resolvedFlat ((l, m) :: rest)).any
            (fun b => b.index == i) = false := by
          rw [hflat, List.any_append, Bool.eq_false_iff]
          intro hc
          rw [Bool.or_eq_true] at hc
          cases hc with
          | inl h1 => exact hm h1
          | inr h2 => exact hrest h2
        rw [hany]
        simp [removeFromResolved, hri, hrr]

/-- Characterization of the unresolved scan of RemoveBreakPoint as
first-match erasure. -/
theorem removeFirstUnresolved_spec (i : Nat) (u : List BreakPoint) :
    removeFirstUnresolved i u =
      if u.any (fun b => b.index == i)
      then some (u.eraseP (fun b => b.index == i))
      else none := by
  induction u with
  | nil => rfl
  | cons bp rest ih =>
    by_cases hb : i = bp.index
    · have hp : (fun b : BreakPoint => b.index == i) bp = true := by simp [hb]
      have hany : (bp :: rest).any (fun b => b.index == i) = true := by
        simp [List.any_cons, hb]
      rw [hany, if_pos rfl,
          @List.eraseP_cons_of_pos _ bp rest
            (fun b : BreakPoint => b.index == i) hp]
      simp [removeFirstUnresolved, hb]
    · have hpb : (bp.index == i) = false := by
        rw [Bool.eq_false_iff]
        intro hc
        have hc2 : bp.index = i := by simpa using hc
        exact hb hc2.symm
      have hneg : ¬ ((fun b : BreakPoint => b.index == i) bp = true) := by
        simp [hpb]
      simp only [removeFirstUnresolved, if_neg hb]
      rw [ih]
      by_cases han : rest.any (fun b => b.index == i) = true
      · rw [if_pos han]
        have hany : (bp :: rest).any (fun b => b.index == i) = true := by
          rw [List.any_cons, hpb, Bool.false_or]
          exact han
        rw [hany, if_pos rfl,
            @List.eraseP_cons_of_neg _ bp rest
              (fun b : BreakPoint => b.index == i) hneg]
        rfl
      · rw [if_neg han]
        have hany : (bp :: rest).any (fun b => b.index == i) = false := by
          rw [List.any_cons, hpb, Bool.false_or]
          exact Bool.eq_false_iff.mpr han
        rw [hany]
        simp

/-- Claim C6: RemoveBreakPoint returns whether some stored breakpoint
carries the index; it removes exactly the first match in scan order
(resolved iteration order first, then the unresolved vector), and on a
non-existent index it returns false leaving the whole state unchanged. -/
theorem c6_remove_breakpoint (s : ServerState) (i : Nat) :
    (RemoveBreakPoint s i).snd = (allBPs s).any (fun bp => bp.index == i) ∧
    allBPs (RemoveBreakPoint s i).fst =
      (allBPs s).eraseP (fun bp => bp.index == i) ∧
    ((allBPs s).any (fun bp => bp.index == i) = false →
      RemoveBreakPoint s i = (s, false)) := by
  have hres := removeFromResolved_spec i s.resolved
  have hunr := removeFirstUnresolved_spec i s.unresolved
  cases hrr : removeFromResolved i s.resolved with
  | some r2 =>
    rw [hrr] at hres
    by_cases hm : (resolvedFlat s.resolved).any (fun b => b.index == i) = true
    · rw [if_pos hm] at hres
      have hr2 := Option.some.inj hres
      obtain ⟨a, hamem, hap⟩ := List.any_eq_true.mp hm
      have hsnd : (RemoveBreakPoint s i).snd = true := by
        simp [RemoveBreakPoint, hrr]
      have hany : (allBPs s).any (fun b => b.index == i) = true := by
        simp [allBPs, List.any_append, hm]
      refine ⟨by rw [hsnd, hany], ?_, ?_⟩
      · have hfst : (RemoveBreakPoint s i).fst = { s with resolved := r2 } := by
          simp [RemoveBreakPoint, hrr]
        rw [hfst]
        show resolvedFlat r2 ++ s.unresolved = _
        rw [hr2,
            show allBPs s = resolvedFlat s.resolved ++ s.unresolved from rfl]
        exact (@List.eraseP_append_left _ (fun b => b.index == i) a hap _
          s.unresolved hamem).symm
      · intro hf
        rw [hany] at hf
        exact absurd hf (by decide)
    · rw [if_neg hm] at hres
      exact absurd hres (by simp)
  | none =>
    rw [hrr] at hres
    have hm : (resolvedFlat s.resolved).any (fun b => b.index == i) = false := by
      by_cases hm2 : (resolvedFlat s.resolved).any (fun b => b.index == i) = true
      · rw [if_pos hm2] at hres
        exact absurd hres.symm (by simp)
      · exact Bool.eq_false_iff.mpr hm2
    have hmnot : ∀ b ∈ resolvedFlat s.resolved, ¬ ((b.index == i) = true) := by
      intro b hbm hpb
      rw [Bool.eq_false_iff] at hm
      exact hm (List.any_eq_true.mpr ⟨b, hbm, hpb⟩)
    cases hru : removeFirstUnresolved i s.unresolved with
    | some u2 =>
      rw [hru] at hunr
      by_cases hu : s.unresolved.any (fun b => b.index == i) = true
      · rw [if_pos hu] at hunr
        have hu2 := Option.some.inj hunr
        have hsnd : (RemoveBreakPoint s i).snd = true := by
          simp [RemoveBreakPoint, hrr, hru]
        have hany : (allBPs s).any (fun b => b.index == i) = true := by
          simp [allBPs, List.any_append, hu]
        refine ⟨by rw [hsnd, hany], ?_, ?_⟩
        · have hfst : (RemoveBreakPoint s i).fst =
              { s with unresolved := u2 } := by
            simp [RemoveBreakPoint, hrr, hru]
          rw [hfst]
          show resolvedFlat s.resolved ++ u2 = _
          rw [hu2,
              show allBPs s = resolvedFlat s.resolved ++ s.unresolved from rfl]
          exact (List.eraseP_append_right s.unresolved hmnot).symm
        · intro hf
          rw [hany] at hf
          exact absurd hf (by decide)
      · rw [if_neg hu] at hunr
        exact absurd hunr (by simp)
    | none =>
      rw [hru] at hunr
      have hu : s.unresolved.any (fun b => b.index == i) = false := by
        by_cases hu2 : s.unresolved.any (fun b => b.index == i) = true
        · rw [if_pos hu2] at hunr
          exact absurd hunr.symm (by simp)
        · exact Bool.eq_false_iff.mpr hu2
      have hunot : ∀ b ∈ s.unresolved, ¬ ((b.index == i) = true) := by
        intro b hbm hpb
        rw [Bool.eq_false_iff] at hu
        exact hu (List.any_eq_true.mpr ⟨b, hbm, hpb⟩)
      have hre : RemoveBreakPoint s i = (s, false) := by
        simp [RemoveBreakPoint, hrr, hru]
      have hany : (allBPs s).any (fun b => b.index == i) = false := by
        simp [allBPs, List.any_append, hm, hu]
      refine ⟨by rw [hre, hany], ?_, fun _ => hre⟩
      rw [hre]
      have herid : (allBPs s).eraseP (fun b => b.index == i) = allBPs s := by
        apply List.eraseP_of_forall_not
        intro a ha
        rw [show allBPs s = resolvedFlat s.resolved ++ s.unresolved from rfl]
          at ha
        rcases List.mem_append.mp ha with h1 | h2
        · exact hmnot a h1
        · exact hunot a h2
      rw [herid]

/-- Witness for claim C6: removing a non-existent index from a state
with one resolved breakpoint returns false and leaves the state
unchanged. -/
theorem c6_remove_breakpoint_witness :
    RemoveBreakPoint c2sOne 9 = (c2sOne, false) :=
  (c6_remove_breakpoint c2sOne 9).2.2 (by decide)

/-- Any key occurs at most once in a strictly key-sorted association
list. -/
theorem countP_keys_le_one {α β : Type} [DecidableEq α] [LinearOrder α] (k : α) :
    ∀ l : List (α × β), l.Pairwise (fun a b => a.fst < b.fst) →
      l.countP (fun x => decide (x.fst = k)) ≤ 1
  | [], _ => by simp
  | a :: rest, h => by
    obtain ⟨hhead, hrest⟩ := List.pairwise_cons.mp h
    rw [List.countP_cons]
    by_cases hk : a.fst = k
    · have hz : rest.countP (fun x => decide (x.fst = k)) = 0 := by
        rw [List.countP_eq_zero]
        intro x hx
        simp only [decide_eq_true_eq]
        exact ne_of_gt (hk ▸ hhead x hx)
      simp [hz, hk]
    · simpa [hk] using countP_keys_le_one k rest hrest

/-- Well-formedness implies (file, line) uniqueness of the resolved
store. -/
theorem resolvedUnique_of_wf (r : List (Nat × List (String × BreakPoint)))
    (hwf : resolvedWF r) : resolvedUnique r := by
  obtain ⟨h1, h2⟩ := hwf
  constructor
  · intro l
    exact countP_keys_le_one l r h1
  · intro e he f
    exact countP_keys_le_one f e.snd (h2 e he)

/-- Members of an inner insertion are the inserted pair or prior
members. -/
theorem innerInsert_mem (file : String) (bp : BreakPoint) :
    ∀ (m : List (String × BreakPoint)) (x : String × BreakPoint),
      x ∈ innerInsert file bp m → x = (file, bp) ∨ x ∈ m
  | [], x, hx => by
    simp [innerInsert] at hx
    exact Or.inl hx
  | (f, b) :: rest, x, hx => by
    by_cases h1 : file < f
    · simp only [innerInsert, if_pos h1] at hx
      rcases List.mem_cons.mp hx with h | h
      · exact Or.inl h
      · exact Or.inr h
    · by_cases h2 : file = f
      · simp only [innerInsert, if_neg h1, if_pos h2] at hx
        exact Or.inr hx
      · simp only [innerInsert, if_neg h1, if_neg h2] at hx
        rcases List.mem_cons.mp hx with h | h
        · exact Or.inr (List.mem_cons.mpr (Or.inl h))
        · rcases innerInsert_mem file bp rest x h with h3 | h3
          · exact Or.inl h3
          · exact Or.inr (List.mem_cons.mpr (Or.inr h3))

/-- Inner insertion preserves strict key sortedness. -/
theorem innerInsert_wf (file : String) (bp : BreakPoint) :
    ∀ m : List (String × BreakPoint), innerWF m →
      innerWF (innerInsert file bp m)
  | [], _ => by simp [innerInsert, innerWF]
  | (f, b) :: rest, hwf => by
    unfold innerWF at hwf ⊢
    obtain ⟨hhead, hrest⟩ := List.pairwise_cons.mp hwf
    by_cases h1 : file < f
    · simp only [innerInsert, if_pos h1]
      refine List.pairwise_cons.mpr ⟨?_, hwf⟩
      intro y hy
      rcases List.mem_cons.mp hy with h | h
      · subst h
        exact h1
      · exact lt_trans h1 (hhead y h)
    · by_cases h2 : file = f
      · simp only [innerInsert, if_neg h1, if_pos h2]
        exact hwf
      · simp only [innerInsert, if_neg h1, if_neg h2]
        refine List.pairwise_cons.mpr ⟨?_, innerInsert_wf file bp rest hrest⟩
        intro y hy
        rcases innerInsert_mem file bp rest y hy with h | h
        · subst h
          rcases lt_trichotomy file f with hl | he | hg
          · exact absurd hl h1
          · exact absurd he h2
          · exact hg
        · exact hhead y h

/-- Members of an outer insertion are prior members, a fresh singleton
entry at the inserted line, or a prior entry at that line with the pair
inserted into its inner map. -/
theorem outerInsert_mem (line : Nat) (file : String) (b2 : BreakPoint) :
    ∀ (r : List (Nat × List (String × BreakPoint)))
      (x : Nat × List (String × BreakPoint)),
      x ∈ outerInsert line file b2 r →
      x ∈ r ∨ x = (line, innerInsert file b2 []) ∨
        ∃ m, (line, m) ∈ r ∧ x = (line, innerInsert file b2 m)
  | [], x, hx => by
    simp [outerInsert] at hx
    exact Or.inr (Or.inl hx)
  | (l, m) :: rest, x, hx => by
    by_cases h1 : line < l
    · simp only [outerInsert, if_pos h1] at hx
      rcases List.mem_cons.mp hx with h | h
      · exact Or.inr (Or.inl h)
      · exact Or.inl h
    · by_cases h2 : line = l
      · simp only [outerInsert, if_neg h1, if_pos h2] at hx
        rcases List.mem_cons.mp hx with h | h
        · subst h2
          exact Or.inr (Or.inr ⟨m, List.mem_cons_self (line, m) rest, h⟩)
        · exact Or.inl (List.mem_cons.mpr (Or.inr h))
      · simp only [outerInsert, if_neg h1, if_neg h2] at hx
        rcases List.mem_cons.mp hx with h | h
        · exact Or.inl (List.mem_cons.mpr (Or.inl h))
        · rcases outerInsert_mem line file b2 rest x h with h3 | h3 | ⟨m2, hm2, hx2⟩
          · exact Or.inl (List.mem_cons.mpr (Or.inr h3))
          · exact Or.inr (Or.inl h3)
          · exact Or.inr (Or.inr ⟨m2, List.mem_cons.mpr (Or.inr hm2), hx2⟩)

/-- Outer insertion preserves well-formedness of the resolved store. -/
theorem outerInsert_wf (line : Nat) (file : String) (b2 : BreakPoint) :
    ∀ r : List (Nat × List (String × BreakPoint)), resolvedWF r →
      resolvedWF (outerInsert line file b2 r)
  | [], _ => by
    constructor
    · simp [outerInsert]
    · intro e he
      simp only [outerInsert, List.mem_singleton] at he
      subst he
      simp [innerInsert, innerWF]
  | (l, m) :: rest, hwf => by
    obtain ⟨hpair, hinner⟩ := hwf
    obtain ⟨hhead, hrest⟩ := List.pairwise_cons.mp hpair
    by_cases h1 : line < l
    · simp only [outerInsert, if_pos h1]
      refine ⟨List.pairwise_cons.mpr ⟨?_, hpair⟩, ?_⟩
      · intro y hy
        rcases List.mem_cons.mp hy with h | h
        · subst h
          exact h1
        · exact lt_trans h1 (hhead y h)
      · intro e he
        rcases List.mem_cons.mp he with h | h
        · subst h
          simp [innerInsert, innerWF]
        · exact hinner e h
    · by_cases h2 : line = l
      · simp only [outerInsert, if_neg h1, if_pos h2]
        refine ⟨List.pairwise_cons.mpr ⟨?_, hrest⟩, ?_⟩
        · intro y hy
          exact hhead y hy
        · intro e he
          rcases List.mem_cons.mp he with h | h
          · subst h
            exact innerInsert_wf file b2 m
              (hinner (l, m) (List.mem_cons_self (l, m) rest))
          · exact hinner e (List.mem_cons.mpr (Or.inr h))
      · simp only [outerInsert, if_neg h1, if_neg h2]
        have hsub := outerInsert_wf line file b2 rest ⟨hrest, fun e he =>
          hinner e (List.mem_cons.mpr (Or.inr he))⟩
        refine ⟨List.pairwise_cons.mpr ⟨?_, hsub.1⟩, ?_⟩
        · intro y hy
          rcases outerInsert_mem line file b2 rest y hy with h | h | ⟨m2, hm2, hx2⟩
          · exact hhead y h
          · subst h
            rcases lt_trichotomy line l with hl | he | hg
            · exact absurd hl h1
            · exact absurd he h2
            · exact hg
          · subst hx2
            rcases lt_trichotomy line l with hl | he | hg
            · exact absurd hl h1
            · exact absurd he h2
            · exact hg
        · intro e he
          rcases List.mem_cons.mp he with h | h
          · subst h
            exact hinner (l, m) (List.mem_cons_self (l, m) rest)
          · exact hsub.2 e h

/-- Inserting at a file key already present in a well-formed inner map
is a no-op: std::map insert keeps the existing entry. -/
theorem innerInsert_found (file : String) (bp : BreakPoint) :
    ∀ (m : List (String × BreakPoint)), innerWF m →
      ∀ fb, m.find? (fun x => x.fst = file) = some fb →
      innerInsert file bp m = m
  | [], _, fb, hf => by simp [List.find?] at hf
  | (f, b) :: rest, hwf, fb, hf => by
    unfold innerWF at hwf
    obtain ⟨hhead, hrest⟩ := List.pairwise_cons.mp hwf
    rcases lt_trichotomy file f with hlt | heq | hgt
    · exfalso
      have hnone : ((f, b) :: rest).find? (fun x => x.fst = file) = none := by
        rw [List.find?_eq_none]
        intro x hx
        simp only [decide_eq_true_eq]
        rcases List.mem_cons.mp hx with h | h
        · subst h
          exact fun hc => absurd (hc ▸ hlt) (lt_irrefl _)
        · intro hc
          have hfx := hhead x h
          rw [hc] at hfx
          exact absurd (lt_trans hlt hfx) (lt_irrefl _)
      rw [hnone] at hf
      exact absurd hf (by simp)
    · have h1 : ¬ file < f := by rw [heq]; exact lt_irrefl f
      simp only [innerInsert, if_neg h1, if_pos heq]
    · have h1 : ¬ file < f := lt_asymm hgt
      have h2 : ¬ file = f := fun hc => absurd (hc ▸ hgt) (lt_irrefl _)
      have hf2 : rest.find? (fun x => x.fst = file) = some fb := by
        rw [List.find?_cons_of_neg] at hf
        · exact hf
        · simp only [decide_eq_true_eq]
          exact fun hc => h2 hc.symm
      simp only [innerInsert, if_neg h1, if_neg h2]
      rw [innerInsert_found file bp rest hrest fb hf2]

/-- Inserting at a (line, file) key already present in a well-formed
resolved store is a no-op on the whole store. -/
theorem outerInsert_found (line : Nat) (file : String) (b2 : BreakPoint) :
    ∀ (r : List (Nat × List (String × BreakPoint))), resolvedWF r →
      ∀ e, r.find? (fun x => x.fst = line) = some e →
      ∀ fb, e.snd.find? (fun x => x.fst = file) = some fb →
      outerInsert line file b2 r = r
  | [], _, e, he, fb, hf => by simp [List.find?] at he
  | (l, m) :: rest, hwf, e, he, fb, hf => by
    obtain ⟨hpair, hinner⟩ := hwf
    obtain ⟨hhead, hrest⟩ := List.pairwise_cons.mp hpair
    rcases lt_trichotomy line l with hlt | heq | hgt
    · exfalso
      have hnone : ((l, m) :: rest).find? (fun x => x.fst = line) = none := by
        rw [List.find?_eq_none]
        intro x hx
        simp only [decide_eq_true_eq]
        rcases List.mem_cons.mp hx with h | h
        · subst h
          omega
        · have hfx := hhead x h
          omega
      rw [hnone] at he
      exact absurd he (by simp)
    · have hp : (fun x : Nat × List (String × BreakPoint) =>
          decide (x.fst = line)) (l, m) = true := by
        simp [heq]
      rw [@List.find?_cons_of_pos _
        (fun x : Nat × List (String × BreakPoint) => decide (x.fst = line))
        (l, m) rest hp] at he
      have he2 : e = (l, m) := (Option.some.inj he).symm
      subst he2
      have h1 : ¬ line < l := by omega
      simp only [outerInsert, if_neg h1, if_pos heq]
      rw [innerInsert_found file b2 m
        (hinner (l, m) (List.mem_cons_self (l, m) rest)) fb hf]
    · have h1 : ¬ line < l := by omega
      have h2 : ¬ line = l := by omega
      have he2 : rest.find? (fun x => x.fst = line) = some e := by
        rw [List.find?_cons_of_neg] at he
        · exact he
        · simp only [decide_eq_true_eq]
          omega
      simp only [outerInsert, if_neg h1, if_neg h2]
      rw [outerInsert_found line file b2 rest
        ⟨hrest, fun e2 he2m => hinner e2 (List.mem_cons.mpr (Or.inr he2m))⟩
        e he2 fb hf]

/-- Claim C2 as amended: inserting a resolved breakpoint at an occupied
(file, line) key is a no-op (std::map insert keeps the prior entry, so
the earliest added breakpoint for a key is the one retained, not the
most recent), and the resolved store never holds two breakpoints with
the same (file, line) pair. -/
theorem c2_resolved_insert_no_overwrite (s : ServerState) (bp : BreakPoint)
    (hwf : resolvedWF s.resolved) :
    resolvedUnique (ImplAddBreakPoint s bp true).resolved ∧
    (∀ old, GetBreakPoint s bp.file bp.line = some old →
      (ImplAddBreakPoint s bp true).resolved = s.resolved ∧
      GetBreakPoint (ImplAddBreakPoint s bp true) bp.file bp.line =
        some old) := by
  have hres : ∃ b2 : BreakPoint,
      (ImplAddBreakPoint s bp true).resolved =
        outerInsert bp.line bp.file b2 s.resolved := by
    by_cases h : bp.index = 0
    · exact ⟨{ bp with index := s.lastBreakpointIndex + 1 },
        by simp [ImplAddBreakPoint, h]⟩
    · exact ⟨bp, by simp [ImplAddBreakPoint, h]⟩
  obtain ⟨b2, hres⟩ := hres
  constructor
  · rw [hres]
    exact resolvedUnique_of_wf _ (outerInsert_wf bp.line bp.file b2 s.resolved hwf)
  · intro old hold
    cases hfe : s.resolved.find? (fun e => e.fst = bp.line) with
    | none =>
      have hnone : GetBreakPoint s bp.file bp.line = none := by
        unfold GetBreakPoint
        rw [hfe]
      rw [hnone] at hold
      exact absurd hold (by simp)
    | some e =>
      cases hff : e.snd.find? (fun f => f.fst = bp.file) with
      | none =>
        have hnone : GetBreakPoint s bp.file bp.line = none := by
          unfold GetBreakPoint
          rw [hfe]
          show (match e.snd.find? (fun f => f.fst = bp.file) with
                | some f => some f.snd
                | none => none) = none
          rw [hff]
        rw [hnone] at hold
        exact absurd hold (by simp)
      | some fb =>
        have hunch : outerInsert bp.line bp.file b2 s.resolved = s.resolved :=
          outerInsert_found bp.line bp.file b2 s.resolved hwf e hfe fb hff
        have hr2 : (ImplAddBreakPoint s bp true).resolved = s.resolved := by
          rw [hres, hunch]
        refine ⟨hr2, ?_⟩
        have hsame : GetBreakPoint (ImplAddBreakPoint s bp true) bp.file
            bp.line = GetBreakPoint s bp.file bp.line := by
          unfold GetBreakPoint
          rw [hr2]
        exact hsame.trans hold

/-- Counterexample to claim C2: a second breakpoint inserted at the
occupied key ("a.rb", 3) is discarded; the entry kept carries index 1
(the first insertion), not index 2 (the most recent one), and the index
counter still advanced to 2. -/
theorem c2_insert_keeps_prior_counterexample :
    GetBreakPoint c2sTwo "a.rb" 3 =
      some { index := 1, file := "a.rb", line := 3 } ∧
    c2sTwo.lastBreakpointIndex = 2 ∧
    GetBreakPoint c2sTwo "a.rb" 3 ≠
      some { index := 2, file := "a.rb", line := 3 } := by
  have h1 : GetBreakPoint c2sTwo "a.rb" 3 =
      some { index := 1, file := "a.rb", line := 3 } := by
    simp [c2sTwo, c2sOne, ImplAddBreakPoint, initState, outerInsert,
          innerInsert, GetBreakPoint, List.find?]
  refine ⟨h1, by simp [c2sTwo, c2sOne, ImplAddBreakPoint, initState], ?_⟩
  rw [h1]
  simp

/-- Witness for claim C2 as amended, at the concrete duplicate
insertion: the store is unchanged and still holds the first breakpoint. -/
theorem c2_resolved_insert_no_overwrite_witness :
    resolvedUnique (ImplAddBreakPoint c2sOne
      { index := 0, file := "a.rb", line := 3 } true).resolved ∧
    (ImplAddBreakPoint c2sOne
      { index := 0, file := "a.rb", line := 3 } true).resolved =
      c2sOne.resolved ∧
    GetBreakPoint (ImplAddBreakPoint c2sOne
      { index := 0, file := "a.rb", line := 3 } true) "a.rb" 3 =
      some { index := 1, file := "a.rb", line := 3 } := by
  have h := c2_resolved_insert_no_overwrite c2sOne
    { index := 0, file := "a.rb", line := 3 }
    (by constructor
        · simp [c2sOne, ImplAddBreakPoint, initState, outerInsert, innerInsert]
        · intro e he
          simp [c2sOne, ImplAddBreakPoint, initState, outerInsert,
                innerInsert] at he
          simp [he, innerWF])
  exact ⟨h.1, (h.2 { index := 1, file := "a.rb", line := 3 } (by decide)).1,
         (h.2 { index := 1, file := "a.rb", line := 3 } (by decide)).2⟩
